import Mathlib

/-!
Verification development for the proto-file-parser repository.

The development shallowly embeds the parsing pipeline of `src/lib.rs`:
the pest parse tree is modelled as a rule-labelled rose tree (`PNode`),
the AST constructor functions (`Proto::parse`, `parse_message`,
`parse_field`, `parse_enum`, `parse_service`) are translated directly,
and the serde JSON serialization contract is modelled as a `Json` value
builder plus a pretty renderer.

The pest grammar file `proto.pest` is not part of the sources; the
lexical rules and the grammar (sections 4.1 and 4.2 of the spec) are
therefore modelled from the spec as a tokenizer plus a recursive-descent
parser producing `PNode` trees.
-/

namespace ProtoFP

/-- Rule tags of the pest grammar, mirroring the `Rule` enum that pest
derives from `proto.pest` (the tags matched by `src/lib.rs`). -/
inductive Rule where
  | proto_file
  | synDecl
  | package
  | importDecl
  | message_def
  | enum_def
  | service_def
  | field
  | field_rule
  | ident
  | full_ident
  | number
  | string_lit
  | enum_value
  | rpc_def
  | message_type
  | primitive_type
  | EOI
deriving DecidableEq, Repr

/-- A pest parse-tree node (`pest::iterators::Pair`): a rule tag, the
matched substring (`as_str`), and the inner pairs (`into_inner`).
Source spans are not modelled; the matched substring of composite nodes
is reconstructed from tokens and is only load-bearing for leaf nodes,
which is the only place `src/lib.rs` reads it. -/
inductive PNode where
  | mk (rule : Rule) (str : String) (children : List PNode)

/-- The rule tag of a pair (`Pair::as_rule`). -/
def PNode.as_rule : PNode → Rule
  | .mk r _ _ => r

/-- The matched text of a pair (`Pair::as_str`). -/
def PNode.as_str : PNode → String
  | .mk _ s _ => s

/-- The inner pairs of a pair (`Pair::into_inner`). -/
def PNode.into_inner : PNode → List PNode
  | .mk _ _ cs => cs

/-- `Field` struct of `src/lib.rs`: name, type_name, tag, repeated,
in declaration order (the serde serialization order). -/
structure Field where
  name : String
  type_name : String
  tag : Int
  repeated : Bool
deriving DecidableEq, Repr

/-- `EnumValue` struct of `src/lib.rs`. -/
structure EnumValue where
  name : String
  number : Int
deriving DecidableEq, Repr

/-- `EnumDef` struct of `src/lib.rs`. -/
structure EnumDef where
  name : String
  values : List EnumValue
deriving DecidableEq, Repr

/-- `Method` struct of `src/lib.rs`. -/
structure Method where
  name : String
  input_type : String
  output_type : String
deriving DecidableEq, Repr

/-- `Service` struct of `src/lib.rs`. -/
structure Service where
  name : String
  methods : List Method
deriving DecidableEq, Repr

/-- `Message` struct of `src/lib.rs`; recursive through
`nested_messages`, so it is an inductive rather than a structure. -/
inductive Message where
  | mk (name : String) (fields : List Field) (nested_messages : List Message)
      (nested_enums : List EnumDef)

/-- Message name projection. -/
def Message.name : Message → String
  | .mk n _ _ _ => n

/-- Message fields projection. -/
def Message.fields : Message → List Field
  | .mk _ f _ _ => f

/-- Nested messages projection. -/
def Message.nested_messages : Message → List Message
  | .mk _ _ m _ => m

/-- Nested enums projection. -/
def Message.nested_enums : Message → List EnumDef
  | .mk _ _ _ e => e

/-- `Proto` struct of `src/lib.rs` (field `syntax` is renamed to `syn`
because `syntax` is reserved in Lean); declaration order is the serde
serialization order. -/
structure Proto where
  syn : String
  package : Option String
  imports : List String
  messages : List Message
  enums : List EnumDef
  services : List Service

/-- Numeric value of a decimal digit string. -/
def decimalVal (s : String) : Nat :=
  s.data.foldl (fun acc c => acc * 10 + (c.toNat - 48)) 0

/-- Model of Rust `str::parse::<i32>()` on a character list: an optional
sign followed by at least one decimal digit, rejected when the value
does not fit in a 32-bit signed integer (Rust checks overflow
incrementally; on sign-and-digit input the result is the same: error
exactly when out of range). -/
def parseI32Core : List Char → Option Int
  | [] => none
  | c :: cs =>
    let signAndDigits : Int × List Char :=
      if c = '+' then (1, cs) else if c = '-' then (-1, cs) else (1, c :: cs)
    let sign := signAndDigits.1
    let ds := signAndDigits.2
    if ds = [] then none
    else if ds.all Char.isDigit then
      let v : Int := sign * (decimalVal (String.mk ds) : Int)
      if -2147483648 ≤ v ∧ v ≤ 2147483647 then some v else none
    else none

/-- Model of Rust `str::parse::<i32>()`. -/
def parseI32 (s : String) : Option Int := parseI32Core s.data

/-- Model of Rust `str::trim_matches(c)`: removes all leading and all
trailing occurrences of the character. -/
def trimMatches (c : Char) (s : String) : String :=
  String.mk (((s.data.dropWhile (· = c)).reverse.dropWhile (· = c)).reverse)

/-- Marker for a Rust panic: an `.unwrap()` on a missing inner pair in
`Proto::parse` or `Proto::parse_service`. -/
inductive BuildPanic where
  | panicked
deriving DecidableEq, Repr

/-- `Proto::parse_field` of `src/lib.rs`: peek for a leading
`field_rule` pair (setting `repeated` by literal string comparison with
"repeated"), then take type, name and tag pairs in order; a missing pair
leaves the corresponding default; the tag is `parse().unwrap_or(0)`. -/
def Proto.parse_field (pair : PNode) : Field :=
  let pairs0 := pair.into_inner
  let peeked : Bool × List PNode :=
    match pairs0 with
    | first :: rest =>
      if first.as_rule = Rule.field_rule then (first.as_str = "repeated", rest)
      else (false, pairs0)
    | [] => (false, pairs0)
  let repeated := peeked.1
  let pairs := peeked.2
  let type_name := match pairs with
    | t :: _ => t.as_str
    | [] => ""
  let name := match pairs with
    | _ :: n :: _ => n.as_str
    | _ => ""
  let tag := match pairs with
    | _ :: _ :: tg :: _ => (parseI32 tg.as_str).getD 0
    | _ => 0
  { name := name, type_name := type_name, tag := tag, repeated := repeated }

/-- The enum-value construction inside `Proto::parse_enum`: name from
the first inner pair, number from the second via `parse().unwrap_or(0)`. -/
def Proto.parseEnumValue (pair : PNode) : EnumValue :=
  match pair.into_inner with
  | n :: num :: _ => { name := n.as_str, number := (parseI32 num.as_str).getD 0 }
  | n :: [] => { name := n.as_str, number := 0 }
  | [] => { name := "", number := 0 }

/-- `Proto::parse_enum` of `src/lib.rs`: the first inner pair supplies
the name when it is an `ident`; every following `enum_value` pair is
converted in order. -/
def Proto.parse_enum (pair : PNode) : EnumDef :=
  match pair.into_inner with
  | [] => { name := "", values := [] }
  | namePair :: rest =>
    let name := if namePair.as_rule = Rule.ident then namePair.as_str else ""
    { name := name
      values := rest.filterMap fun p =>
        if p.as_rule = Rule.enum_value then some (Proto.parseEnumValue p) else none }

mutual

/-- `Proto::parse_message` of `src/lib.rs`: the first inner pair
supplies the name when it is an `ident`; the remaining pairs are
dispatched on their rule into fields, nested messages and nested enums
in order. -/
def Proto.parse_message : PNode → Message
  | .mk _ _ [] => .mk "" [] [] []
  | .mk _ _ (namePair :: rest) =>
    let name := if namePair.as_rule = Rule.ident then namePair.as_str else ""
    let r := Proto.messageLoop rest
    .mk name r.1 r.2.1 r.2.2

/-- The body loop of `Proto::parse_message`, accumulating the three
entity lists in source order. -/
def Proto.messageLoop : List PNode → List Field × List Message × List EnumDef
  | [] => ([], [], [])
  | p :: ps =>
    let r := Proto.messageLoop ps
    match p.as_rule with
    | Rule.field => (Proto.parse_field p :: r.1, r.2.1, r.2.2)
    | Rule.message_def => (r.1, Proto.parse_message p :: r.2.1, r.2.2)
    | Rule.enum_def => (r.1, r.2.1, Proto.parse_enum p :: r.2.2)
    | _ => r

end

/-- The rpc-method construction inside `Proto::parse_service`: name from
the first inner pair, then for each of the input and output pairs the
code calls `.into_inner().next().unwrap()`, which panics when the
`message_type` pair has no inner pair. -/
def Proto.parseRpc (pair : PNode) : Except BuildPanic Method := do
  let ps := pair.into_inner
  let name := match ps with
    | n :: _ => n.as_str
    | [] => ""
  let input_type ← match ps with
    | _ :: ip :: _ =>
      match ip.into_inner with
      | c :: _ => pure c.as_str
      | [] => Except.error BuildPanic.panicked
    | _ => pure ""
  let output_type ← match ps with
    | _ :: _ :: op :: _ =>
      match op.into_inner with
      | c :: _ => pure c.as_str
      | [] => Except.error BuildPanic.panicked
    | _ => pure ""
  pure { name := name, input_type := input_type, output_type := output_type }

/-- Sequential fallible map (the shape of a Rust for-loop that builds a
vector and can abort): the first failure aborts the whole run. -/
def exceptMapM {α β ε : Type} (f : α → Except ε β) : List α → Except ε (List β)
  | [] => Except.ok []
  | a :: as => do
    let b ← f a
    let bs ← exceptMapM f as
    pure (b :: bs)

/-- `Proto::parse_service` of `src/lib.rs`: the first inner pair
supplies the name when it is an `ident`; every following `rpc_def` pair
is converted in order (a panic inside any conversion aborts the call). -/
def Proto.parse_service (pair : PNode) : Except BuildPanic Service := do
  match pair.into_inner with
  | [] => pure { name := "", methods := [] }
  | namePair :: rest =>
    let name := if namePair.as_rule = Rule.ident then namePair.as_str else ""
    let methods ← exceptMapM Proto.parseRpc
      (rest.filter (fun p => p.as_rule = Rule.rpc_def))
    pure { name := name, methods := methods }

/-- The freshly initialized `Proto` value of `Proto::parse`. -/
def Proto.init : Proto :=
  { syn := "proto3", package := none, imports := [], messages := [],
    enums := [], services := [] }

/-- The inner loop of `Proto::parse` over the children of the
`proto_file` pair: each declaration updates the document; the
`.into_inner().next().unwrap()` calls on syntax, package and import
pairs panic when the pair has no inner pair. -/
def Proto.buildLoop : List PNode → Proto → Except BuildPanic Proto
  | [], proto => pure proto
  | p :: ps, proto =>
    match p.as_rule with
    | Rule.synDecl =>
      match p.into_inner with
      | c :: _ =>
        Proto.buildLoop ps { proto with syn := trimMatches '"' c.as_str }
      | [] => Except.error BuildPanic.panicked
    | Rule.package =>
      match p.into_inner with
      | c :: _ =>
        Proto.buildLoop ps { proto with package := some c.as_str }
      | [] => Except.error BuildPanic.panicked
    | Rule.importDecl =>
      match p.into_inner with
      | c :: _ =>
        Proto.buildLoop ps
          { proto with imports := proto.imports ++ [trimMatches '"' c.as_str] }
      | [] => Except.error BuildPanic.panicked
    | Rule.message_def =>
      Proto.buildLoop ps
        { proto with messages := proto.messages ++ [Proto.parse_message p] }
    | Rule.enum_def =>
      Proto.buildLoop ps
        { proto with enums := proto.enums ++ [Proto.parse_enum p] }
    | Rule.service_def => do
      let svc ← Proto.parse_service p
      Proto.buildLoop ps { proto with services := proto.services ++ [svc] }
    | Rule.EOI => Proto.buildLoop ps proto
    | _ => Proto.buildLoop ps proto

/-! ## Lexical rule set

Modelled from the spec: the pest grammar file `proto.pest` is not among
the sources, so the lexical rules of spec section 4.1 (identifiers,
qualified identifiers, integer literals, string literals, comments,
whitespace, and the auto-skip policy between structural tokens) are
modelled as a tokenizer. -/

/-- The opening brace character. -/
def lbraceC : Char := '\x7b'

/-- The closing brace character. -/
def rbraceC : Char := '\x7d'

/-- WHITESPACE rule: space, tab, carriage return, newline. -/
def isWs (c : Char) : Bool :=
  c = ' ' ∨ c = '\t' ∨ c = '\r' ∨ c = '\n'

/-- First character of an `ident`: a letter. -/
def identStart (c : Char) : Bool := c.isAlpha

/-- Continuation character of an `ident`: letter, digit or underscore. -/
def identCont (c : Char) : Bool := c.isAlphanum ∨ c = '_'

/-- Characters allowed inside a `string_lit`: path-like characters
(alphanumerics, slash, dot, dash, underscore). -/
def strLitChar (c : Char) : Bool :=
  c.isAlphanum ∨ c = '/' ∨ c = '.' ∨ c = '-' ∨ c = '_'

/-- Structural one-character symbols of the grammar. -/
def isSymChar (c : Char) : Bool :=
  c = '=' ∨ c = ';' ∨ c = '(' ∨ c = ')' ∨ c = lbraceC ∨ c = rbraceC

/-- A structural token: identifier (possibly dot-qualified, by maximal
munch), integer literal, string literal (kept with its surrounding
quotes, which are only stripped at AST-construction time), or a
one-character symbol. -/
inductive Tok where
  | id (s : String)
  | num (s : String)
  | lit (s : String)
  | sym (c : Char)
deriving DecidableEq, Repr

/-- Maximal munch of a possibly dot-qualified identifier (`full_ident`:
`ident` segments joined by dots); returns the matched characters and the
rest. Fuel bounds the number of segments. -/
def takeDotted : Nat → List Char → List Char × List Char
  | 0, cs => ([], cs)
  | fuel + 1, cs =>
    let seg := cs.takeWhile identCont
    let rest := cs.dropWhile identCont
    match rest with
    | '.' :: d :: ds =>
      if identStart d then
        let r := takeDotted fuel (d :: ds)
        (seg ++ '.' :: r.1, r.2)
      else (seg, rest)
    | _ => (seg, rest)

/-- Skips a block comment body up to and including the closing marker;
`none` when the comment is unterminated. -/
def dropBlockComment : Nat → List Char → Option (List Char)
  | 0, _ => none
  | _, [] => none
  | _ + 1, '*' :: '/' :: rest => some rest
  | fuel + 1, _ :: rest => dropBlockComment fuel rest

/-- One tokenizer step per structural token, skipping WHITESPACE and
COMMENT (both `//` line comments and `/* */` block comments) between
tokens. An error carries the number of characters left at the offending
position (a source-location measure). -/
def tokenizeGo : Nat → List Char → Except Nat (List Tok)
  | 0, cs => Except.error cs.length
  | _ + 1, [] => pure []
  | fuel + 1, c :: cs =>
    if isWs c then tokenizeGo fuel cs
    else if c = '/' then
      match cs with
      | '/' :: rest => tokenizeGo fuel (rest.dropWhile (· ≠ '\n'))
      | '*' :: rest =>
        match dropBlockComment (rest.length + 1) rest with
        | some rest2 => tokenizeGo fuel rest2
        | none => Except.error 0
      | rest => Except.error (rest.length + 1)
    else if identStart c then
      let r := takeDotted (cs.length + 1) (c :: cs)
      (fun ts => Tok.id (String.mk r.1) :: ts) <$> tokenizeGo fuel r.2
    else if c.isDigit then
      (fun ts => Tok.num (String.mk ((c :: cs).takeWhile Char.isDigit)) :: ts) <$>
        tokenizeGo fuel ((c :: cs).dropWhile Char.isDigit)
    else if c = '"' then
      let content := cs.takeWhile strLitChar
      match cs.dropWhile strLitChar with
      | '"' :: rest2 =>
        (fun ts => Tok.lit (String.mk ('"' :: content ++ ['"'])) :: ts) <$>
          tokenizeGo fuel rest2
      | rest2 => Except.error rest2.length
    else if isSymChar c then
      (fun ts => Tok.sym c :: ts) <$> tokenizeGo fuel cs
    else Except.error (cs.length + 1)

/-- The tokenizer over an input string. -/
def tokenize (s : String) : Except Nat (List Tok) :=
  tokenizeGo (s.data.length + 1) s.data

/-! ## Grammar / parse-tree builder

Modelled from the spec: the hierarchical grammar of spec section 4.2
(`proto_file` down to fields, enum values and rpc definitions) as a
recursive-descent parser with PEG semantics (ordered choice with
backtracking between alternatives, committed sequencing within one).
Matched-substring fields of composite nodes are not reconstructed (the
AST constructor only reads them on leaf nodes) and are left empty.
A parse error carries the number of unconsumed tokens at the failure
point (a source-location measure). -/

/-- Failure at the given remaining-token position. -/
def perr {α : Type} (toks : List Tok) : Except Nat α :=
  Except.error toks.length

/-- Does an identifier carry a dot (i.e. is it qualified)? -/
def hasDot (s : String) : Bool := s.data.contains '.'

/-- The `field_rule` keywords. -/
def fieldRuleKw (s : String) : Bool :=
  s = "repeated" ∨ s = "optional" ∨ s = "required"

/-- The `primitive_type` keywords. -/
def primitiveKw (s : String) : Bool :=
  ["double", "float", "int32", "int64", "uint32", "uint64", "sint32",
   "sint64", "fixed32", "fixed64", "sfixed32", "sfixed64", "bool",
   "string", "bytes"].contains s

/-- Matches one structural symbol. -/
def pSym (c : Char) : List Tok → Except Nat (List Tok)
  | Tok.sym d :: rest => if d = c then pure rest else perr (Tok.sym d :: rest)
  | ts => perr ts

/-- Matches a plain (unqualified) `ident`. -/
def pIdent : List Tok → Except Nat (PNode × List Tok)
  | Tok.id s :: rest =>
    if hasDot s then perr (Tok.id s :: rest)
    else pure (PNode.mk Rule.ident s [], rest)
  | ts => perr ts

/-- Matches a `full_ident` (one or more dot-joined segments). -/
def pFullIdent : List Tok → Except Nat (PNode × List Tok)
  | Tok.id s :: rest => pure (PNode.mk Rule.full_ident s [], rest)
  | ts => perr ts

/-- Matches a `string_lit` (the node text keeps the quotes). -/
def pStringLit : List Tok → Except Nat (PNode × List Tok)
  | Tok.lit s :: rest => pure (PNode.mk Rule.string_lit s [], rest)
  | ts => perr ts

/-- Matches a `number` (a decimal digit sequence). -/
def pNumber : List Tok → Except Nat (PNode × List Tok)
  | Tok.num s :: rest => pure (PNode.mk Rule.number s [], rest)
  | ts => perr ts

/-- Matches the given keyword identifier. -/
def pKw (kw : String) : List Tok → Except Nat (List Tok)
  | Tok.id s :: rest => if s = kw then pure rest else perr (Tok.id s :: rest)
  | ts => perr ts

/-- `syntax = "syntax" "=" string_lit ";"`; only the `string_lit`
produces an inner pair. -/
def pSynDecl (toks : List Tok) : Except Nat (PNode × List Tok) := do
  let r1 ← pKw "syntax" toks
  let r2 ← pSym '=' r1
  let (litN, r3) ← pStringLit r2
  let r4 ← pSym ';' r3
  pure (PNode.mk Rule.synDecl "" [litN], r4)

/-- `package = "package" full_ident ";"`. -/
def pPackage (toks : List Tok) : Except Nat (PNode × List Tok) := do
  let r1 ← pKw "package" toks
  let (idN, r2) ← pFullIdent r1
  let r3 ← pSym ';' r2
  pure (PNode.mk Rule.package "" [idN], r3)

/-- `import = "import" string_lit ";"`. -/
def pImportDecl (toks : List Tok) : Except Nat (PNode × List Tok) := do
  let r1 ← pKw "import" toks
  let (litN, r2) ← pStringLit r1
  let r3 ← pSym ';' r2
  pure (PNode.mk Rule.importDecl "" [litN], r3)

/-- A `type_name`: a `primitive_type` keyword or an `ident`/`full_ident`
reference (the rule is silent; the classified leaf is the inner pair). -/
def typeNode (s : String) : PNode :=
  if primitiveKw s then PNode.mk Rule.primitive_type s []
  else if hasDot s then PNode.mk Rule.full_ident s []
  else PNode.mk Rule.ident s []

/-- `field = field_rule? type_name ident "=" number ";"`; the optional
leading `field_rule` is a leaf pair carrying its keyword. -/
def pField (toks : List Tok) : Except Nat (PNode × List Tok) := do
  let pre : List PNode × List Tok :=
    match toks with
    | Tok.id s :: rest =>
      if fieldRuleKw s then ([PNode.mk Rule.field_rule s []], rest)
      else ([], toks)
    | _ => ([], toks)
  match pre.2 with
  | Tok.id s :: rest => do
    let (nameN, r2) ← pIdent rest
    let r3 ← pSym '=' r2
    let (numN, r4) ← pNumber r3
    let r5 ← pSym ';' r4
    pure (PNode.mk Rule.field "" (pre.1 ++ [typeNode s, nameN, numN]), r5)
  | ts => perr ts

/-- `enum_value = ident "=" number ";"`. -/
def pEnumValue (toks : List Tok) : Except Nat (PNode × List Tok) := do
  let (nameN, r1) ← pIdent toks
  let r2 ← pSym '=' r1
  let (numN, r3) ← pNumber r2
  let r4 ← pSym ';' r3
  pure (PNode.mk Rule.enum_value "" [nameN, numN], r4)

/-- `enum_value*`: collects values until one no longer matches. -/
def pEnumValues : Nat → List Tok → Except Nat (List PNode × List Tok)
  | 0, ts => perr ts
  | fuel + 1, toks =>
    match pEnumValue toks with
    | .ok (n, rest) =>
      (fun r => (n :: r.1, r.2)) <$> pEnumValues fuel rest
    | .error _ => pure ([], toks)

/-- `enum_def = "enum" ident "{" enum_value* "}"`. -/
def pEnumDef (toks : List Tok) : Except Nat (PNode × List Tok) := do
  let r1 ← pKw "enum" toks
  let (nameN, r2) ← pIdent r1
  let r3 ← pSym lbraceC r2
  let (vals, r4) ← pEnumValues (r3.length + 1) r3
  let r5 ← pSym rbraceC r4
  pure (PNode.mk Rule.enum_def "" (nameN :: vals), r5)

/-- `message_type = "stream"? ident`: the optional stream marker is a
plain literal producing no pair, so the only inner pair is the bare
type identifier. -/
def pMessageType (toks : List Tok) : Except Nat (PNode × List Tok) :=
  match toks with
  | Tok.id s :: rest =>
    if s = "stream" then
      match rest with
      | Tok.id t :: rest2 =>
        if hasDot t then perr (Tok.id t :: rest2)
        else pure (PNode.mk Rule.message_type "" [PNode.mk Rule.ident t []], rest2)
      | ts => perr ts
    else if hasDot s then perr (Tok.id s :: rest)
    else pure (PNode.mk Rule.message_type "" [PNode.mk Rule.ident s []], rest)
  | ts => perr ts

/-- `rpc_def = "rpc" ident "(" message_type ")" "returns" "("
message_type ")" (";" | "{" "}")`. -/
def pRpcDef (toks : List Tok) : Except Nat (PNode × List Tok) := do
  let r1 ← pKw "rpc" toks
  let (nameN, r2) ← pIdent r1
  let r3 ← pSym '(' r2
  let (inN, r4) ← pMessageType r3
  let r5 ← pSym ')' r4
  let r6 ← pKw "returns" r5
  let r7 ← pSym '(' r6
  let (outN, r8) ← pMessageType r7
  let r9 ← pSym ')' r8
  let r10 ← match pSym ';' r9 with
    | .ok r => pure r
    | .error _ => do
      let ra ← pSym lbraceC r9
      pSym rbraceC ra
  pure (PNode.mk Rule.rpc_def "" [nameN, inN, outN], r10)

/-- `rpc_def*`. -/
def pRpcs : Nat → List Tok → Except Nat (List PNode × List Tok)
  | 0, ts => perr ts
  | fuel + 1, toks =>
    match pRpcDef toks with
    | .ok (n, rest) => (fun r => (n :: r.1, r.2)) <$> pRpcs fuel rest
    | .error _ => pure ([], toks)

/-- `service_def = "service" ident "{" rpc_def* "}"`. -/
def pServiceDef (toks : List Tok) : Except Nat (PNode × List Tok) := do
  let r1 ← pKw "service" toks
  let (nameN, r2) ← pIdent r1
  let r3 ← pSym lbraceC r2
  let (rpcs, r4) ← pRpcs (r3.length + 1) r3
  let r5 ← pSym rbraceC r4
  pure (PNode.mk Rule.service_def "" (nameN :: rpcs), r5)

mutual

/-- `message_def = "message" ident "{" message_element* "}"`. -/
def pMessageDef : Nat → List Tok → Except Nat (PNode × List Tok)
  | 0, ts => perr ts
  | fuel + 1, toks => do
    let r1 ← pKw "message" toks
    let (nameN, r2) ← pIdent r1
    let r3 ← pSym lbraceC r2
    let (elems, r4) ← pMessageElems fuel r3
    let r5 ← pSym rbraceC r4
    pure (PNode.mk Rule.message_def "" (nameN :: elems), r5)

/-- `message_element*`: each element is a nested `message_def`, a nested
`enum_def`, a `field`, or an empty `";"` statement (silent: it
contributes no pair); the star stops at the closing brace. -/
def pMessageElems : Nat → List Tok → Except Nat (List PNode × List Tok)
  | 0, ts => perr ts
  | fuel + 1, toks =>
    match toks with
    | Tok.sym c :: rest =>
      if c = ';' then pMessageElems fuel rest
      else pure ([], toks)
    | _ =>
      match pMessageDef fuel toks with
      | .ok (n, rest) => (fun r => (n :: r.1, r.2)) <$> pMessageElems fuel rest
      | .error _ =>
        match pEnumDef toks with
        | .ok (n, rest) => (fun r => (n :: r.1, r.2)) <$> pMessageElems fuel rest
        | .error _ =>
          match pField toks with
          | .ok (n, rest) => (fun r => (n :: r.1, r.2)) <$> pMessageElems fuel rest
          | .error e => Except.error e

end

/-- `import*`. -/
def pImports : Nat → List Tok → Except Nat (List PNode × List Tok)
  | 0, ts => perr ts
  | fuel + 1, toks =>
    match pImportDecl toks with
    | .ok (n, rest) => (fun r => (n :: r.1, r.2)) <$> pImports fuel rest
    | .error _ => pure ([], toks)

/-- `(message_def | enum_def | service_def)*`: ordered choice with
backtracking; the star stops when no alternative matches. -/
def pTopDefs : Nat → List Tok → Except Nat (List PNode × List Tok)
  | 0, ts => perr ts
  | fuel + 1, toks =>
    match pMessageDef fuel toks with
    | .ok (n, rest) => (fun r => (n :: r.1, r.2)) <$> pTopDefs fuel rest
    | .error _ =>
      match pEnumDef toks with
      | .ok (n, rest) => (fun r => (n :: r.1, r.2)) <$> pTopDefs fuel rest
      | .error _ =>
        match pServiceDef toks with
        | .ok (n, rest) => (fun r => (n :: r.1, r.2)) <$> pTopDefs fuel rest
        | .error _ => pure ([], toks)

/-- `proto_file = syntax? package? import* (message_def | enum_def |
service_def)* EOI`; the `EOI` pair is part of the children, as matched
by the AST constructor. -/
def pProtoFile (toks : List Tok) : Except Nat PNode := do
  let fuel := toks.length + 2
  let st1 : List PNode × List Tok :=
    match pSynDecl toks with
    | .ok (n, r) => ([n], r)
    | .error _ => ([], toks)
  let st2 : List PNode × List Tok :=
    match pPackage st1.2 with
    | .ok (n, r) => ([n], r)
    | .error _ => ([], st1.2)
  let (imps, r3) ← pImports fuel st2.2
  let (defs, r4) ← pTopDefs fuel r3
  match r4 with
  | [] =>
    pure (PNode.mk Rule.proto_file ""
      (st1.1 ++ st2.1 ++ imps ++ defs ++ [PNode.mk Rule.EOI "" []]))
  | ts => perr ts

/-- Source-location payload of a pest parse error (modelled as the
remaining-input measure at the failure point). -/
structure PestErr where
  pos : Nat
deriving DecidableEq, Repr

/-- `ParserError` enum of `src/lib.rs`; `ioError` is only reachable from
`parse_file` and `serializationError` from the serde call. -/
inductive ParserError where
  | syntaxError (msg : String)
  | parseError (e : PestErr)
  | ioError (msg : String)
  | serializationError (msg : String)
deriving DecidableEq, Repr

/-- Result of running a fallible Rust function that may also panic:
`ok` and `err` are the two sides of the returned `Result`; `panicked`
marks a Rust panic (a reached `.unwrap()` on `None`). -/
inductive Outcome (α : Type) where
  | ok (val : α)
  | err (e : ParserError)
  | panicked

/-- `Proto::parse` up to (but not including) JSON serialization:
grammar matching via the pest-modelled pipeline, then the AST
construction loop over the children of the `proto_file` pair. -/
def Proto.parseDoc (input : String) : Outcome Proto :=
  match tokenize input with
  | .error n => .err (.parseError ⟨n⟩)
  | .ok toks =>
    match pProtoFile toks with
    | .error n => .err (.parseError ⟨n⟩)
    | .ok tree =>
      match Proto.buildLoop tree.into_inner Proto.init with
      | .error _ => .panicked
      | .ok proto => .ok proto

/-! ## Serializer

The serde derive on the structs of `src/lib.rs` emits struct fields in
declaration order and `Option::None` as JSON null; `serde_json`
preserves that order, so the serialization contract is modelled as a
JSON value whose object entries follow the struct declaration order,
plus the `to_string_pretty` renderer. -/

/-- A JSON value; object entries are ordered, as emitted by serde. -/
inductive Json where
  | null
  | bool (b : Bool)
  | int (n : Int)
  | str (s : String)
  | arr (elems : List Json)
  | obj (entries : List (String × Json))

/-- The keys of an object value, in emission order. -/
def Json.objKeys : Json → List String
  | .obj entries => entries.map Prod.fst
  | _ => []

/-- Looks an object entry up by key. -/
def Json.objGet (j : Json) (k : String) : Option Json :=
  match j with
  | .obj entries => (entries.find? (fun e => e.1 = k)).map Prod.snd
  | _ => none

/-- serde serialization of `Field`, in declaration order. -/
def Field.toJson (f : Field) : Json :=
  .obj [("name", .str f.name), ("type_name", .str f.type_name),
        ("tag", .int f.tag), ("repeated", .bool f.repeated)]

/-- serde serialization of `EnumValue`. -/
def EnumValue.toJson (v : EnumValue) : Json :=
  .obj [("name", .str v.name), ("number", .int v.number)]

/-- serde serialization of `EnumDef`. -/
def EnumDef.toJson (e : EnumDef) : Json :=
  .obj [("name", .str e.name), ("values", .arr (e.values.map EnumValue.toJson))]

/-- serde serialization of `Method`. -/
def Method.toJson (m : Method) : Json :=
  .obj [("name", .str m.name), ("input_type", .str m.input_type),
        ("output_type", .str m.output_type)]

/-- serde serialization of `Service`. -/
def Service.toJson (s : Service) : Json :=
  .obj [("name", .str s.name), ("methods", .arr (s.methods.map Method.toJson))]

mutual

/-- serde serialization of `Message`, recursing through nested
messages, in declaration order. -/
def Message.toJson : Message → Json
  | .mk n fs ms es =>
    .obj [("name", .str n),
          ("fields", .arr (fs.map Field.toJson)),
          ("nested_messages", .arr (Message.listToJson ms)),
          ("nested_enums", .arr (es.map EnumDef.toJson))]

/-- serde serialization of a message list. -/
def Message.listToJson : List Message → List Json
  | [] => []
  | m :: ms => Message.toJson m :: Message.listToJson ms

end

/-- serde serialization of the root `Proto` struct, in declaration
order; an absent package is JSON null. -/
def Proto.toJson (p : Proto) : Json :=
  .obj [("syntax", .str p.syn),
        ("package", match p.package with | none => Json.null | some s => .str s),
        ("imports", .arr (p.imports.map Json.str)),
        ("messages", .arr (Message.listToJson p.messages)),
        ("enums", .arr (p.enums.map EnumDef.toJson)),
        ("services", .arr (p.services.map Service.toJson))]

/-- An indentation run of spaces. -/
def spaces (n : Nat) : String := String.mk (List.replicate n ' ')

/-- JSON string escaping (quote and backslash; the only characters the
parsed data can need). -/
def escStr (s : String) : String :=
  String.mk (s.data.foldr
    (fun c acc => if c = '"' ∨ c = '\\' then '\\' :: c :: acc else c :: acc) [])

/-- A quoted JSON string. -/
def jquote (s : String) : String := "\"" ++ escStr s ++ "\""

mutual

/-- `serde_json::to_string_pretty` rendering: two-space indentation,
one entry per line, empty containers inline. -/
def Json.render : Json → Nat → String
  | .null, _ => "null"
  | .bool b, _ => if b then "true" else "false"
  | .int n, _ => toString n
  | .str s, _ => jquote s
  | .arr [], _ => "[]"
  | .arr (x :: xs), ind =>
    "[\n" ++ Json.renderItems (x :: xs) (ind + 2) ++ "\n" ++ spaces ind ++ "]"
  | .obj [], _ => "\x7b\x7d"
  | .obj (kv :: kvs), ind =>
    "\x7b\n" ++ Json.renderEntries (kv :: kvs) (ind + 2) ++ "\n" ++ spaces ind
      ++ "\x7d"

/-- Renders array items, comma-and-newline separated. -/
def Json.renderItems : List Json → Nat → String
  | [], _ => ""
  | [x], ind => spaces ind ++ Json.render x ind
  | x :: y :: xs, ind =>
    spaces ind ++ Json.render x ind ++ ",\n" ++ Json.renderItems (y :: xs) ind

/-- Renders object entries, comma-and-newline separated. -/
def Json.renderEntries : List (String × Json) → Nat → String
  | [], _ => ""
  | [(k, v)], ind => spaces ind ++ jquote k ++ ": " ++ Json.render v ind
  | (k, v) :: kv :: kvs, ind =>
    spaces ind ++ jquote k ++ ": " ++ Json.render v ind ++ ",\n" ++
      Json.renderEntries (kv :: kvs) ind

end

/-- `Proto::parse` of `src/lib.rs`: grammar matching, AST construction,
then pretty JSON serialization of the document. -/
def Proto.parse (input : String) : Outcome String :=
  match Proto.parseDoc input with
  | .ok d => .ok (Json.render (Proto.toJson d) 0)
  | .err e => .err e
  | .panicked => .panicked

/-- Is `pat` a contiguous substring of `hay`? -/
def startsWithL : List Char → List Char → Bool
  | [], _ => true
  | _ :: _, [] => false
  | p :: ps, h :: hs => p = h && startsWithL ps hs

/-- Contiguous-substring check over character lists. -/
def containsSub (pat : List Char) : List Char → Bool
  | [] => startsWithL pat []
  | h :: t => startsWithL pat (h :: t) || containsSub pat t

/-- The import path the construction loop extracts from an import pair:
the first inner pair's text with surrounding quotes stripped. -/
def importValue (c : PNode) : String :=
  match c.into_inner with
  | x :: _ => trimMatches '"' x.as_str
  | [] => ""

/-- Absence of the unwrap panics in the construction of one rpc pair:
the input and output pairs, when present, have an inner pair. -/
def RpcOk (q : PNode) : Prop :=
  match q.into_inner with
  | _ :: ip :: op :: _ => ip.into_inner ≠ [] ∧ op.into_inner ≠ []
  | [_, ip] => ip.into_inner ≠ []
  | _ => True

/-- Absence of the unwrap panics in the construction step for one
child of the `proto_file` pair. -/
def NodeOk (p : PNode) : Prop :=
  match p.as_rule with
  | Rule.synDecl => p.into_inner ≠ []
  | Rule.package => p.into_inner ≠ []
  | Rule.importDecl => p.into_inner ≠ []
  | Rule.service_def => ∀ q ∈ p.into_inner, q.as_rule = Rule.rpc_def → RpcOk q
  | _ => True

/-! ## Theorems -/

/-- Bind of a success, specialized to `Except`. -/
theorem bindOk {ε α β : Type} (a : α) (f : α → Except ε β) :
    (Except.ok a : Except ε α) >>= f = f a := rfl

/-- Bind of a failure, specialized to `Except`. -/
theorem bindErr {ε α β : Type} (e : ε) (f : α → Except ε β) :
    (Except.error e : Except ε α) >>= f = Except.error e := rfl

/-- C2: a parsed field is `repeated` exactly when its leading pair is a
`field_rule` pair whose text is literally "repeated"; any other leading
modifier, a non-modifier first pair, or no pair at all yields
`repeated = false`. -/
theorem c2_repeated_iff_first_modifier (p : PNode) :
    (Proto.parse_field p).repeated = true ↔
      ∃ c cs, p.into_inner = c :: cs ∧ c.as_rule = Rule.field_rule ∧
        c.as_str = "repeated" := by
  cases p with
  | mk r s children =>
    cases children with
    | nil => simp [Proto.parse_field, PNode.into_inner]
    | cons c cs =>
      by_cases hr : c.as_rule = Rule.field_rule
      · by_cases hs : c.as_str = "repeated"
        · simp [Proto.parse_field, PNode.into_inner, hr, hs]
        · simp [Proto.parse_field, PNode.into_inner, hr, hs]
      · simp [Proto.parse_field, PNode.into_inner, hr]

/-- Rust `parse::<i32>()` fails on a digit-only literal whose value
exceeds the 32-bit signed range. -/
theorem parseI32_eq_none_of_overflow (s : String) (hne : s.data ≠ [])
    (hd : s.data.all Char.isDigit = true)
    (hov : 2147483647 < (decimalVal s : Int)) :
    parseI32 s = none := by
  obtain ⟨l⟩ := s
  cases l with
  | nil => exact absurd rfl hne
  | cons c cs =>
    have hc : c.isDigit = true := by
      have := hd
      simp [List.all_cons] at this
      exact this.1
    have h1 : ¬ c = '+' := by
      intro h
      rw [h] at hc
      exact absurd hc (by decide)
    have h2 : ¬ c = '-' := by
      intro h
      rw [h] at hc
      exact absurd hc (by decide)
    have hcond : ¬ (-2147483648 ≤ (1 : Int) * (decimalVal (String.mk (c :: cs)) : Int) ∧
        (1 : Int) * (decimalVal (String.mk (c :: cs)) : Int) ≤ 2147483647) := by
      intro h
      have hv := h.2
      rw [one_mul] at hv
      have : (2147483647 : Int) < (decimalVal (String.mk (c :: cs)) : Int) := hov
      omega
    simp [parseI32, parseI32Core, h1, h2, hd, hcond]
    intro _
    exact_mod_cast hov

/-- C3: a tag or enum-number literal that the digit rule matches but
whose conversion to a 32-bit signed integer overflows yields 0 in the
constructed entity, and parsing still succeeds end to end. -/
theorem c3_overflow_yields_zero :
    (∀ (p t n tg fr : PNode) (more : List PNode),
       (p.into_inner = t :: n :: tg :: more ∧ t.as_rule ≠ Rule.field_rule) ∨
         (p.into_inner = fr :: t :: n :: tg :: more ∧ fr.as_rule = Rule.field_rule) →
       tg.as_str.data ≠ [] → tg.as_str.data.all Char.isDigit = true →
       2147483647 < (decimalVal tg.as_str : Int) →
       (Proto.parse_field p).tag = 0)
  ∧ (∀ (v n num : PNode) (more : List PNode),
       v.into_inner = n :: num :: more →
       num.as_str.data ≠ [] → num.as_str.data.all Char.isDigit = true →
       2147483647 < (decimalVal num.as_str : Int) →
       (Proto.parseEnumValue v).number = 0)
  ∧ Proto.parseDoc
      "message M \x7b int32 x = 99999999999; \x7d enum E \x7b A = 99999999999; \x7d" =
      Outcome.ok ⟨"proto3", none, [],
        [Message.mk "M" [⟨"x", "int32", 0, false⟩] [] []],
        [⟨"E", [⟨"A", 0⟩]⟩], []⟩ := by
  refine ⟨?_, ?_, by rfl⟩
  · intro p t n tg fr more hshape hne hd hov
    obtain ⟨r, s, children⟩ := p
    rcases hshape with ⟨hch, hfr⟩ | ⟨hch, hfr⟩ <;>
      simp only [PNode.into_inner] at hch <;> subst hch <;>
      simp [Proto.parse_field, PNode.into_inner, hfr,
        parseI32_eq_none_of_overflow tg.as_str hne hd hov]
  · intro v n num more hch hne hd hov
    obtain ⟨r, s, children⟩ := v
    simp only [PNode.into_inner] at hch
    subst hch
    simp [Proto.parseEnumValue, PNode.into_inner,
      parseI32_eq_none_of_overflow num.as_str hne hd hov]

/-- C3 witness: the hypotheses discharged on a concrete field pair and a
concrete enum-value pair whose literals are eleven nines. -/
theorem c3_witness :
    (Proto.parse_field (PNode.mk Rule.field ""
       [PNode.mk Rule.primitive_type "int32" [], PNode.mk Rule.ident "x" [],
        PNode.mk Rule.number "99999999999" []])).tag = 0 ∧
    (Proto.parseEnumValue (PNode.mk Rule.enum_value ""
       [PNode.mk Rule.ident "A" [], PNode.mk Rule.number "99999999999" []])).number = 0 :=
  ⟨c3_overflow_yields_zero.1 _ (PNode.mk Rule.primitive_type "int32" [])
      (PNode.mk Rule.ident "x" []) (PNode.mk Rule.number "99999999999" [])
      (PNode.mk Rule.EOI "" []) []
      (Or.inl ⟨rfl, by decide⟩) (by decide) (by decide) (by decide),
   c3_overflow_yields_zero.2.1 _ (PNode.mk Rule.ident "A" [])
      (PNode.mk Rule.number "99999999999" []) []
      rfl (by decide) (by decide) (by decide)⟩

/-- The AST-construction loop leaves the syntax field unchanged when no
`syntax` declaration pair is among the processed children. -/
theorem buildLoop_syn_of_no_syn (cs : List PNode) : ∀ (st proto : Proto),
    (∀ c ∈ cs, c.as_rule ≠ Rule.synDecl) →
    Proto.buildLoop cs st = Except.ok proto → proto.syn = st.syn := by
  induction cs with
  | nil =>
    intro st proto _ hb
    simp only [Proto.buildLoop, pure, Except.pure, Except.ok.injEq] at hb
    rw [← hb]
  | cons p ps ih =>
    intro st proto h hb
    have hp : p.as_rule ≠ Rule.synDecl := h p (List.mem_cons_self p ps)
    have hps : ∀ c ∈ ps, c.as_rule ≠ Rule.synDecl :=
      fun c hc => h c (List.mem_cons_of_mem p hc)
    unfold Proto.buildLoop at hb
    split at hb
    · exact absurd (by assumption) hp
    · split at hb
      · have h2 := ih _ proto hps hb
        exact h2
      · exact Except.noConfusion hb
    · split at hb
      · have h2 := ih _ proto hps hb
        exact h2
      · exact Except.noConfusion hb
    · have h2 := ih _ proto hps hb
      exact h2
    · have h2 := ih _ proto hps hb
      exact h2
    · cases hsvc : Proto.parse_service p with
      | error e =>
        rw [hsvc] at hb
        exact Except.noConfusion hb
      | ok svc =>
        rw [hsvc] at hb
        have h2 := ih _ proto hps hb
        exact h2
    · have h2 := ih _ proto hps hb
      exact h2
    · have h2 := ih _ proto hps hb
      exact h2

/-- C5: a document with no syntax statement keeps the default syntax
"proto3"; a present syntax statement sets the syntax to its string
literal with the surrounding quotes stripped. -/
theorem c5_syntax_default :
    (∀ (cs : List PNode) (proto : Proto),
       (∀ c ∈ cs, c.as_rule ≠ Rule.synDecl) →
       Proto.buildLoop cs Proto.init = Except.ok proto → proto.syn = "proto3")
  ∧ (∀ (s lits : String) (cr cs : List PNode) (st proto : Proto),
       (∀ c ∈ cs, c.as_rule ≠ Rule.synDecl) →
       Proto.buildLoop
         (PNode.mk Rule.synDecl s (PNode.mk Rule.string_lit lits [] :: cr) :: cs) st
         = Except.ok proto →
       proto.syn = trimMatches '"' lits)
  ∧ Proto.parseDoc "syntax = \"proto2\";" = Outcome.ok ⟨"proto2", none, [], [], [], []⟩
  ∧ Proto.parseDoc "message M \x7b \x7d" =
      Outcome.ok ⟨"proto3", none, [], [Message.mk "M" [] [] []], [], []⟩ := by
  refine ⟨?_, ?_, by rfl, by rfl⟩
  · intro cs proto h hb
    exact buildLoop_syn_of_no_syn cs Proto.init proto h hb
  · intro s lits cr cs st proto h hb
    unfold Proto.buildLoop at hb
    simp only [PNode.as_rule, PNode.into_inner] at hb
    exact buildLoop_syn_of_no_syn cs _ proto h hb

/-- C5 witness: both general conjuncts discharged at concrete inputs
(the empty child list, and a syntax pair carrying "proto2"). -/
theorem c5_witness :
    Proto.init.syn = "proto3" ∧
    ({ Proto.init with syn := trimMatches '"' "\"proto2\"" } : Proto).syn =
      trimMatches '"' "\"proto2\"" :=
  ⟨c5_syntax_default.1 [] Proto.init (by simp) rfl,
   c5_syntax_default.2.1 "" "\"proto2\"" [] [] Proto.init _ (by simp) rfl⟩

/-- C6: the serialized document lists its fields in the declaration
order of the structs (`syntax, package, imports, messages, enums,
services` at top level; the fixed recursive orders for `Message` and
`Field`), and an absent package serializes as JSON null. -/
theorem c6_json_field_order :
    (∀ p : Proto, (Proto.toJson p).objKeys =
       ["syntax", "package", "imports", "messages", "enums", "services"])
  ∧ (∀ m : Message, (Message.toJson m).objKeys =
       ["name", "fields", "nested_messages", "nested_enums"])
  ∧ (∀ f : Field, (Field.toJson f).objKeys =
       ["name", "type_name", "tag", "repeated"])
  ∧ (∀ p : Proto, p.package = none →
       (Proto.toJson p).objGet "package" = some Json.null) := by
  refine ⟨fun p => rfl, fun m => ?_, fun f => rfl, fun p h => ?_⟩
  · cases m with
    | mk n fs ms es => rfl
  · simp [Proto.toJson, Json.objGet, h, List.find?]

/-- C6 witness: the key-order and null-package facts discharged on the
freshly initialized document, whose package is absent. -/
theorem c6_witness :
    (Proto.toJson Proto.init).objGet "package" = some Json.null :=
  c6_json_field_order.2.2.2 Proto.init rfl


/-- The message-body loop returns exactly the in-order projections of
the children onto fields, nested messages and nested enums. -/
theorem messageLoop_filter (cs : List PNode) :
    Proto.messageLoop cs =
      ((cs.filter (fun c => c.as_rule = Rule.field)).map Proto.parse_field,
       (cs.filter (fun c => c.as_rule = Rule.message_def)).map Proto.parse_message,
       (cs.filter (fun c => c.as_rule = Rule.enum_def)).map Proto.parse_enum) := by
  induction cs with
  | nil => rfl
  | cons p ps ih =>
    unfold Proto.messageLoop
    rw [ih]
    cases hr : p.as_rule <;> simp [hr, List.filter_cons]

/-- The enum-body loop returns exactly the in-order projection of the
children onto enum values. -/
theorem enumValues_filter (cs : List PNode) :
    (cs.filterMap fun p =>
        if p.as_rule = Rule.enum_value then some (Proto.parseEnumValue p) else none) =
      (cs.filter (fun c => c.as_rule = Rule.enum_value)).map Proto.parseEnumValue := by
  induction cs with
  | nil => rfl
  | cons p ps ih =>
    by_cases hr : p.as_rule = Rule.enum_value <;>
      simp [List.filterMap_cons, List.filter_cons, hr, ih]

/-- The top-level construction loop appends exactly the in-order
projections of the processed children onto messages, enums, imports and
services. -/
theorem buildLoop_ok_lists (cs : List PNode) : ∀ (st proto : Proto),
    Proto.buildLoop cs st = Except.ok proto →
    proto.messages = st.messages ++
        (cs.filter (fun c => c.as_rule = Rule.message_def)).map Proto.parse_message ∧
    proto.enums = st.enums ++
        (cs.filter (fun c => c.as_rule = Rule.enum_def)).map Proto.parse_enum ∧
    proto.imports = st.imports ++
        (cs.filter (fun c => c.as_rule = Rule.importDecl)).map importValue ∧
    ∃ svcs,
      exceptMapM Proto.parse_service
          (cs.filter (fun c => c.as_rule = Rule.service_def)) = Except.ok svcs ∧
      proto.services = st.services ++ svcs := by
  induction cs with
  | nil =>
    intro st proto hb
    simp only [Proto.buildLoop, pure, Except.pure, Except.ok.injEq] at hb
    subst hb
    exact ⟨by simp, by simp, by simp, [], rfl, by simp⟩
  | cons p ps ih =>
    intro st proto hb
    cases hr : p.as_rule
    all_goals simp only [Proto.buildLoop, hr] at hb
    case synDecl =>
      split at hb
      · have h2 := ih _ proto hb
        simpa [List.filter_cons, hr] using h2
      · exact Except.noConfusion hb
    case package =>
      split at hb
      · have h2 := ih _ proto hb
        simpa [List.filter_cons, hr] using h2
      · exact Except.noConfusion hb
    case importDecl =>
      split at hb
      · rename_i c tail heq
        have h2 := ih _ proto hb
        simpa [List.filter_cons, hr, importValue, heq, List.append_assoc] using h2
      · exact Except.noConfusion hb
    case message_def =>
      have h2 := ih _ proto hb
      simpa [List.filter_cons, hr, List.append_assoc] using h2
    case enum_def =>
      have h2 := ih _ proto hb
      simpa [List.filter_cons, hr, List.append_assoc] using h2
    case service_def =>
      cases hsvc : Proto.parse_service p with
      | error e =>
        rw [hsvc] at hb
        exact Except.noConfusion hb
      | ok svc =>
        rw [hsvc] at hb
        have h2 := ih _ proto hb
        obtain ⟨hm, he, hi, svcs, hs1, hs2⟩ := h2
        refine ⟨by simpa [List.filter_cons, hr] using hm,
          by simpa [List.filter_cons, hr] using he,
          by simpa [List.filter_cons, hr] using hi, svc :: svcs, ?_, ?_⟩
        · simp [List.filter_cons, hr, exceptMapM, hsvc, hs1]
          rfl
        · simpa [List.append_assoc] using hs2
    all_goals
      have h2 := ih _ proto hb
      simpa [List.filter_cons, hr] using h2

/-- The methods of a parsed service are the in-order fallible map of the
`rpc_def` children. -/
theorem parse_service_methods (p nm : PNode) (rest : List PNode) (svc : Service)
    (hch : p.into_inner = nm :: rest) (h : Proto.parse_service p = Except.ok svc) :
    ∃ ms, exceptMapM Proto.parseRpc
        (rest.filter (fun q => q.as_rule = Rule.rpc_def)) = Except.ok ms ∧
      svc.methods = ms := by
  unfold Proto.parse_service at h
  rw [hch] at h
  replace h : (do
      let methods ← exceptMapM Proto.parseRpc
        (rest.filter (fun q => q.as_rule = Rule.rpc_def))
      pure (Service.mk (if nm.as_rule = Rule.ident then nm.as_str else "")
        methods) : Except BuildPanic Service) = Except.ok svc := h
  cases hm : exceptMapM Proto.parseRpc
      (rest.filter (fun q => q.as_rule = Rule.rpc_def)) with
  | error e =>
    rw [hm] at h
    exact Except.noConfusion h
  | ok ms =>
    rw [hm] at h
    have h2 := Except.ok.inj h
    exact ⟨ms, rfl, by rw [← h2]⟩

set_option maxRecDepth 8192 in
/-- C7: every output sequence lists its elements in the order of their
source appearance: the construction loops append in iteration order, so
each list is the in-order projection of the parse-tree children, whose
order is the source order. -/
theorem c7_source_order :
    (∀ (cs : List PNode) (st proto : Proto),
       Proto.buildLoop cs st = Except.ok proto →
       proto.messages = st.messages ++
           (cs.filter (fun c => c.as_rule = Rule.message_def)).map Proto.parse_message ∧
       proto.enums = st.enums ++
           (cs.filter (fun c => c.as_rule = Rule.enum_def)).map Proto.parse_enum ∧
       proto.imports = st.imports ++
           (cs.filter (fun c => c.as_rule = Rule.importDecl)).map importValue ∧
       ∃ svcs,
         exceptMapM Proto.parse_service
             (cs.filter (fun c => c.as_rule = Rule.service_def)) = Except.ok svcs ∧
         proto.services = st.services ++ svcs)
  ∧ (∀ cs : List PNode,
       Proto.messageLoop cs =
         ((cs.filter (fun c => c.as_rule = Rule.field)).map Proto.parse_field,
          (cs.filter (fun c => c.as_rule = Rule.message_def)).map Proto.parse_message,
          (cs.filter (fun c => c.as_rule = Rule.enum_def)).map Proto.parse_enum))
  ∧ (∀ (p nm : PNode) (rest : List PNode),
       p.into_inner = nm :: rest →
       (Proto.parse_enum p).values =
         (rest.filter (fun c => c.as_rule = Rule.enum_value)).map Proto.parseEnumValue)
  ∧ (∀ (p nm : PNode) (rest : List PNode) (svc : Service),
       p.into_inner = nm :: rest → Proto.parse_service p = Except.ok svc →
       ∃ ms, exceptMapM Proto.parseRpc
           (rest.filter (fun q => q.as_rule = Rule.rpc_def)) = Except.ok ms ∧
         svc.methods = ms)
  ∧ Proto.parseDoc
      ("import \"a.proto\"; import \"b.proto\"; message A \x7b \x7d message B \x7b \x7d " ++
       "enum E \x7b X = 0; Y = 1; \x7d " ++
       "service S \x7b rpc M1 (T) returns (T); rpc M2 (U) returns (U); \x7d") =
      Outcome.ok ⟨"proto3", none, ["a.proto", "b.proto"],
        [Message.mk "A" [] [] [], Message.mk "B" [] [] []],
        [⟨"E", [⟨"X", 0⟩, ⟨"Y", 1⟩]⟩],
        [⟨"S", [⟨"M1", "T", "T"⟩, ⟨"M2", "U", "U"⟩]⟩]⟩ := by
  refine ⟨buildLoop_ok_lists, messageLoop_filter, ?_, parse_service_methods, by rfl⟩
  intro p nm rest hch
  unfold Proto.parse_enum
  rw [hch]
  simpa using enumValues_filter rest

/-- C7 witness: the order characterizations discharged at concrete
inputs (the empty child list, and a one-value enum pair). -/
theorem c7_witness :
    Proto.init.messages = Proto.init.messages ++
        (([] : List PNode).filter
          (fun c => c.as_rule = Rule.message_def)).map Proto.parse_message ∧
    (Proto.parse_enum (PNode.mk Rule.enum_def ""
        [PNode.mk Rule.ident "E" [],
         PNode.mk Rule.enum_value ""
           [PNode.mk Rule.ident "X" [], PNode.mk Rule.number "0" []]])).values =
      (([PNode.mk Rule.enum_value ""
          [PNode.mk Rule.ident "X" [], PNode.mk Rule.number "0" []]]).filter
        (fun c => c.as_rule = Rule.enum_value)).map Proto.parseEnumValue :=
  ⟨(c7_source_order.1 [] Proto.init Proto.init rfl).1,
   c7_source_order.2.2.1
     (PNode.mk Rule.enum_def ""
       [PNode.mk Rule.ident "E" [],
        PNode.mk Rule.enum_value ""
          [PNode.mk Rule.ident "X" [], PNode.mk Rule.number "0" []]])
     (PNode.mk Rule.ident "E" [])
     [PNode.mk Rule.enum_value ""
       [PNode.mk Rule.ident "X" [], PNode.mk Rule.number "0" []]]
     rfl⟩

/-- C8: two inputs whose structural token sequences coincide (i.e. that
differ only in whitespace style and comment placement between
structural tokens) produce identical parse results, in particular
byte-identical JSON output. -/
theorem c8_ws_comment_invariance (a b : String) (ts : List Tok)
    (ha : tokenize a = .ok ts) (hb : tokenize b = .ok ts) :
    Proto.parse a = Proto.parse b := by
  unfold Proto.parse Proto.parseDoc
  rw [ha, hb]

/-- C8 witness: an input with tabs, newlines, line and block comments
produces the same output as its plainly spaced counterpart. -/
theorem c8_witness :
    Proto.parse "message A \x7b string n = 1; \x7d" =
      Proto.parse "/* head */\nmessage\tA // trailing\n\x7b\n  string n  =  1 ;\n\x7d" :=
  c8_ws_comment_invariance _ _
    [Tok.id "message", Tok.id "A", Tok.sym lbraceC, Tok.id "string",
     Tok.id "n", Tok.sym '=', Tok.num "1", Tok.sym ';', Tok.sym rbraceC]
    rfl rfl

/-- C4: a parsed rpc method records the bare input and output type
identifiers taken from inside the `message_type` pairs, so a `stream`
marker (which produces no pair of its own) never reaches the strings;
a bidirectional-streaming rpc and its unmarked counterpart construct
identical methods, with no residual "stream" substring. -/
theorem c4_stream_stripped :
    (∀ (p nm i o : PNode) (s1 s2 : String) (r1 r2 rest : List PNode),
       p.into_inner = nm :: PNode.mk Rule.message_type s1 (i :: r1) ::
         PNode.mk Rule.message_type s2 (o :: r2) :: rest →
       Proto.parseRpc p = Except.ok ⟨nm.as_str, i.as_str, o.as_str⟩)
  ∧ Proto.parseDoc "service S \x7b rpc M (stream A) returns (stream B); \x7d" =
      Outcome.ok ⟨"proto3", none, [], [], [], [⟨"S", [⟨"M", "A", "B"⟩]⟩]⟩
  ∧ Proto.parseDoc "service S \x7b rpc M (A) returns (B); \x7d" =
      Outcome.ok ⟨"proto3", none, [], [], [], [⟨"S", [⟨"M", "A", "B"⟩]⟩]⟩
  ∧ containsSub "stream".data "A".data = false
  ∧ containsSub "stream".data "B".data = false := by
  refine ⟨?_, by rfl, by rfl, by decide, by decide⟩
  intro p nm i o s1 s2 r1 r2 rest hch
  unfold Proto.parseRpc
  rw [hch]
  rfl

/-- C4 witness: the extraction equation discharged on the concrete rpc
pair produced for `rpc M (stream A) returns (stream B);`. -/
theorem c4_witness :
    Proto.parseRpc (PNode.mk Rule.rpc_def ""
      [PNode.mk Rule.ident "M" [],
       PNode.mk Rule.message_type "" [PNode.mk Rule.ident "A" []],
       PNode.mk Rule.message_type "" [PNode.mk Rule.ident "B" []]]) =
      Except.ok ⟨"M", "A", "B"⟩ :=
  c4_stream_stripped.1
    (PNode.mk Rule.rpc_def ""
      [PNode.mk Rule.ident "M" [],
       PNode.mk Rule.message_type "" [PNode.mk Rule.ident "A" []],
       PNode.mk Rule.message_type "" [PNode.mk Rule.ident "B" []]])
    (PNode.mk Rule.ident "M" []) (PNode.mk Rule.ident "A" [])
    (PNode.mk Rule.ident "B" []) "" "" [] [] [] rfl

/-- C1: a parse call never yields both a document and an error, and the
three malformed shapes (missing semicolon, unterminated string literal,
unmatched brace) each yield the grammar-mismatch error (the error kind
that carries the failing source location) and hence no document. -/
theorem c1_all_or_nothing :
    (∀ (s j : String), Proto.parse s = Outcome.ok j →
       ∀ e, Proto.parse s ≠ Outcome.err e)
  ∧ (∃ pe, Proto.parse "message Test \x7b string name = 1 \x7d" =
       Outcome.err (ParserError.parseError pe))
  ∧ (∃ pe, Proto.parse "syntax = \"proto3;" =
       Outcome.err (ParserError.parseError pe))
  ∧ (∃ pe, Proto.parse "message Test \x7b" =
       Outcome.err (ParserError.parseError pe)) := by
  refine ⟨?_, ⟨⟨8⟩, by rfl⟩, ⟨⟨1⟩, by rfl⟩, ⟨⟨3⟩, by rfl⟩⟩
  intro s j hok e hcontra
  rw [hok] at hcontra
  exact Outcome.noConfusion hcontra

/-- C1 witness: a successful parse (of the empty file) is not an error. -/
theorem c1_witness :
    Proto.parse "" ≠ Outcome.err (ParserError.parseError ⟨0⟩) :=
  c1_all_or_nothing.1 ""
    ("\x7b\n  \"syntax\": \"proto3\",\n  \"package\": null,\n  \"imports\": [],\n" ++
     "  \"messages\": [],\n  \"enums\": [],\n  \"services\": []\n\x7d")
    (by rfl) (ParserError.parseError ⟨0⟩)

/-- C9: `Proto::parse` is deterministic — it is a pure function of the
input text in this embedding (the source performs no I/O and touches no
state other than its own locals), so equal inputs give equal results. -/
theorem c9_parse_deterministic (s1 s2 : String) (h : s1 = s2) :
    Proto.parse s1 = Proto.parse s2 ∧ Proto.parseDoc s1 = Proto.parseDoc s2 := by
  subst h
  exact ⟨rfl, rfl⟩

/-- C9 witness: the determinism contract at a concrete input. -/
theorem c9_witness :
    Proto.parse "syntax = \"proto3\";" = Proto.parse "syntax = \"proto3\";" :=
  (c9_parse_deterministic _ _ rfl).1

/-- An rpc pair satisfying `RpcOk` constructs a method without
panicking. -/
theorem parseRpc_ok_of_RpcOk (q : PNode) (h : RpcOk q) :
    ∃ m, Proto.parseRpc q = Except.ok m := by
  unfold RpcOk at h
  cases hch : q.into_inner with
  | nil =>
    refine ⟨⟨"", "", ""⟩, ?_⟩
    unfold Proto.parseRpc
    rw [hch]
    rfl
  | cons a as =>
    cases as with
    | nil =>
      refine ⟨⟨a.as_str, "", ""⟩, ?_⟩
      unfold Proto.parseRpc
      rw [hch]
      rfl
    | cons ip rest =>
      rw [hch] at h
      cases rest with
      | nil =>
        cases hip : ip.into_inner with
        | nil => exact absurd hip (by simpa using h)
        | cons c cr =>
          refine ⟨⟨a.as_str, c.as_str, ""⟩, ?_⟩
          unfold Proto.parseRpc
          rw [hch]
          simp [hip, bindOk]
          rfl
      | cons op rest2 =>
        obtain ⟨h1, h2⟩ : ip.into_inner ≠ [] ∧ op.into_inner ≠ [] := by simpa using h
        cases hip : ip.into_inner with
        | nil => exact absurd hip h1
        | cons c cr =>
          cases hop : op.into_inner with
          | nil => exact absurd hop h2
          | cons d dr =>
            refine ⟨⟨a.as_str, c.as_str, d.as_str⟩, ?_⟩
            unfold Proto.parseRpc
            rw [hch]
            simp [hip, hop, bindOk]
            rfl

/-- A list of panic-free rpc pairs maps to methods without failing. -/
theorem exceptMapM_rpc_ok (l : List PNode)
    (h : ∀ q ∈ l, ∃ m, Proto.parseRpc q = Except.ok m) :
    ∃ ms, exceptMapM Proto.parseRpc l = Except.ok ms := by
  induction l with
  | nil => exact ⟨[], rfl⟩
  | cons a as ih =>
    obtain ⟨m, hm⟩ := h a (List.mem_cons_self a as)
    obtain ⟨ms, hms⟩ := ih (fun q hq => h q (List.mem_cons_of_mem a hq))
    refine ⟨m :: ms, ?_⟩
    unfold exceptMapM
    rw [hm, bindOk, hms, bindOk]
    rfl

/-- A service pair satisfying `NodeOk` constructs a service without
panicking. -/
theorem parse_service_ok_of_NodeOk (p : PNode) (hr : p.as_rule = Rule.service_def)
    (h : NodeOk p) : ∃ svc, Proto.parse_service p = Except.ok svc := by
  unfold NodeOk at h
  rw [hr] at h
  cases hch : p.into_inner with
  | nil =>
    refine ⟨⟨"", []⟩, ?_⟩
    unfold Proto.parse_service
    rw [hch]
    rfl
  | cons namePair rest =>
    rw [hch] at h
    have hall : ∀ q ∈ rest.filter (fun q => q.as_rule = Rule.rpc_def),
        ∃ m, Proto.parseRpc q = Except.ok m := by
      intro q hq
      have hmem := List.mem_of_mem_filter hq
      have hrq : q.as_rule = Rule.rpc_def := by
        have := List.of_mem_filter hq
        simpa using this
      exact parseRpc_ok_of_RpcOk q (h q (List.mem_cons_of_mem namePair hmem) hrq)
    obtain ⟨ms, hms⟩ := exceptMapM_rpc_ok _ hall
    refine ⟨⟨if namePair.as_rule = Rule.ident then namePair.as_str else "", ms⟩, ?_⟩
    unfold Proto.parse_service
    rw [hch]
    simp [hms, bindOk]

/-- A successful `syntax` match produces a `synDecl` pair with an inner
pair. -/
theorem pSynDecl_inv (toks : List Tok) (n : PNode) (r : List Tok)
    (h : pSynDecl toks = Except.ok (n, r)) :
    n.as_rule = Rule.synDecl ∧ n.into_inner ≠ [] := by
  unfold pSynDecl at h
  cases h1 : pKw "syntax" toks with
  | error e => simp only [h1, bindErr] at h; exact Except.noConfusion h
  | ok r1 =>
    simp only [h1, bindOk] at h
    cases h2 : pSym '=' r1 with
    | error e => simp only [h2, bindErr] at h; exact Except.noConfusion h
    | ok r2 =>
      simp only [h2, bindOk] at h
      cases h3 : pStringLit r2 with
      | error e => simp only [h3, bindErr] at h; exact Except.noConfusion h
      | ok pr =>
        obtain ⟨litN, r3⟩ := pr
        simp only [h3, bindOk] at h
        cases h4 : pSym ';' r3 with
        | error e => simp only [h4, bindErr] at h; exact Except.noConfusion h
        | ok r4 =>
          simp only [h4, bindOk] at h
          have h5 : (PNode.mk Rule.synDecl "" [litN], r4) = (n, r) :=
            Except.ok.inj h
          cases h5
          exact ⟨rfl, by simp [PNode.into_inner]⟩

/-- `pure` is success, specialized to `Except`. -/
theorem pureOk {ε α : Type} (a : α) :
    (pure a : Except ε α) = Except.ok a := rfl

/-- Map over a success, specialized to `Except`. -/
theorem mapOk {ε α β : Type} (f : α → β) (a : α) :
    f <$> (Except.ok a : Except ε α) = Except.ok (f a) := rfl

/-- Map over a failure, specialized to `Except`. -/
theorem mapErr {ε α β : Type} (f : α → β) (e : ε) :
    f <$> (Except.error e : Except ε α) = Except.error e := rfl

/-- A successful `package` match produces a `package` pair with an
inner pair. -/
theorem pPackage_inv (toks : List Tok) (n : PNode) (r : List Tok)
    (h : pPackage toks = Except.ok (n, r)) :
    n.as_rule = Rule.package ∧ n.into_inner ≠ [] := by
  unfold pPackage at h
  cases h1 : pKw "package" toks with
  | error e => simp only [h1, bindErr] at h; exact Except.noConfusion h
  | ok r1 =>
    simp only [h1, bindOk] at h
    cases h2 : pFullIdent r1 with
    | error e => simp only [h2, bindErr] at h; exact Except.noConfusion h
    | ok pr =>
      obtain ⟨idN, r2⟩ := pr
      simp only [h2, bindOk] at h
      cases h3 : pSym ';' r2 with
      | error e => simp only [h3, bindErr] at h; exact Except.noConfusion h
      | ok r3 =>
        simp only [h3, bindOk] at h
        have h5 : (PNode.mk Rule.package "" [idN], r3) = (n, r) := Except.ok.inj h
        cases h5
        exact ⟨rfl, by simp [PNode.into_inner]⟩

/-- A successful `import` match produces an `importDecl` pair with an
inner pair. -/
theorem pImportDecl_inv (toks : List Tok) (n : PNode) (r : List Tok)
    (h : pImportDecl toks = Except.ok (n, r)) :
    n.as_rule = Rule.importDecl ∧ n.into_inner ≠ [] := by
  unfold pImportDecl at h
  cases h1 : pKw "import" toks with
  | error e => simp only [h1, bindErr] at h; exact Except.noConfusion h
  | ok r1 =>
    simp only [h1, bindOk] at h
    cases h2 : pStringLit r1 with
    | error e => simp only [h2, bindErr] at h; exact Except.noConfusion h
    | ok pr =>
      obtain ⟨litN, r2⟩ := pr
      simp only [h2, bindOk] at h
      cases h3 : pSym ';' r2 with
      | error e => simp only [h3, bindErr] at h; exact Except.noConfusion h
      | ok r3 =>
        simp only [h3, bindOk] at h
        have h5 : (PNode.mk Rule.importDecl "" [litN], r3) = (n, r) := Except.ok.inj h
        cases h5
        exact ⟨rfl, by simp [PNode.into_inner]⟩

/-- A successful plain-identifier match produces an `ident` pair. -/
theorem pIdent_inv (ts : List Tok) (n : PNode) (r : List Tok)
    (h : pIdent ts = Except.ok (n, r)) : n.as_rule = Rule.ident := by
  cases ts with
  | nil => exact Except.noConfusion h
  | cons t rest =>
    cases t with
    | id s =>
      simp only [pIdent] at h
      by_cases hd : hasDot s
      · rw [if_pos hd] at h
        exact Except.noConfusion h
      · rw [if_neg hd] at h
        have h5 : (PNode.mk Rule.ident s [], rest) = (n, r) := Except.ok.inj h
        cases h5
        rfl
    | num s => exact Except.noConfusion h
    | lit s => exact Except.noConfusion h
    | sym c => exact Except.noConfusion h

/-- A successful `message_type` match produces a pair with an inner
pair (the bare type identifier). -/
theorem pMessageType_inv (ts : List Tok) (n : PNode) (r : List Tok)
    (h : pMessageType ts = Except.ok (n, r)) : n.into_inner ≠ [] := by
  cases ts with
  | nil => exact Except.noConfusion h
  | cons t rest =>
    cases t with
    | id s =>
      simp only [pMessageType] at h
      by_cases h1 : s = "stream"
      · rw [if_pos h1] at h
        cases rest with
        | nil => exact Except.noConfusion h
        | cons t2 rest2 =>
          cases t2 with
          | id t3 =>
            dsimp only at h
            by_cases h2 : hasDot t3
            · rw [if_pos h2] at h
              exact Except.noConfusion h
            · rw [if_neg h2] at h
              have h5 : (PNode.mk Rule.message_type ""
                  [PNode.mk Rule.ident t3 []], rest2) = (n, r) := Except.ok.inj h
              cases h5
              simp [PNode.into_inner]
          | num t3 => exact Except.noConfusion h
          | lit t3 => exact Except.noConfusion h
          | sym c => exact Except.noConfusion h
      · rw [if_neg h1] at h
        by_cases h2 : hasDot s
        · rw [if_pos h2] at h
          exact Except.noConfusion h
        · rw [if_neg h2] at h
          have h5 : (PNode.mk Rule.message_type ""
              [PNode.mk Rule.ident s []], rest) = (n, r) := Except.ok.inj h
          cases h5
          simp [PNode.into_inner]
    | num s => exact Except.noConfusion h
    | lit s => exact Except.noConfusion h
    | sym c => exact Except.noConfusion h

/-- A successful `enum_def` match produces an `enum_def` pair. -/
theorem pEnumDef_rule (toks : List Tok) (n : PNode) (r : List Tok)
    (h : pEnumDef toks = Except.ok (n, r)) : n.as_rule = Rule.enum_def := by
  unfold pEnumDef at h
  cases h1 : pKw "enum" toks with
  | error e => simp only [h1, bindErr] at h; exact Except.noConfusion h
  | ok r1 =>
    simp only [h1, bindOk] at h
    cases h2 : pIdent r1 with
    | error e => simp only [h2, bindErr] at h; exact Except.noConfusion h
    | ok pr =>
      obtain ⟨nameN, r2⟩ := pr
      simp only [h2, bindOk] at h
      cases h3 : pSym lbraceC r2 with
      | error e => simp only [h3, bindErr] at h; exact Except.noConfusion h
      | ok r3 =>
        simp only [h3, bindOk] at h
        cases h4 : pEnumValues (r3.length + 1) r3 with
        | error e => simp only [h4, bindErr] at h; exact Except.noConfusion h
        | ok pr2 =>
          obtain ⟨vals, r4⟩ := pr2
          simp only [h4, bindOk] at h
          cases h5 : pSym rbraceC r4 with
          | error e => simp only [h5, bindErr] at h; exact Except.noConfusion h
          | ok r5 =>
            simp only [h5, bindOk] at h
            have h6 : (PNode.mk Rule.enum_def "" (nameN :: vals), r5) = (n, r) :=
              Except.ok.inj h
            cases h6
            rfl

/-- A successful `message_def` match produces a `message_def` pair. -/
theorem pMessageDef_rule (fuel : Nat) (toks : List Tok) (n : PNode) (r : List Tok)
    (h : pMessageDef fuel toks = Except.ok (n, r)) : n.as_rule = Rule.message_def := by
  cases fuel with
  | zero => exact Except.noConfusion h
  | succ fuel =>
    unfold pMessageDef at h
    cases h1 : pKw "message" toks with
    | error e => simp only [h1, bindErr] at h; exact Except.noConfusion h
    | ok r1 =>
      simp only [h1, bindOk] at h
      cases h2 : pIdent r1 with
      | error e => simp only [h2, bindErr] at h; exact Except.noConfusion h
      | ok pr =>
        obtain ⟨nameN, r2⟩ := pr
        simp only [h2, bindOk] at h
        cases h3 : pSym lbraceC r2 with
        | error e => simp only [h3, bindErr] at h; exact Except.noConfusion h
        | ok r3 =>
          simp only [h3, bindOk] at h
          cases h4 : pMessageElems fuel r3 with
          | error e => simp only [h4, bindErr] at h; exact Except.noConfusion h
          | ok pr2 =>
            obtain ⟨elems, r4⟩ := pr2
            simp only [h4, bindOk] at h
            cases h5 : pSym rbraceC r4 with
            | error e => simp only [h5, bindErr] at h; exact Except.noConfusion h
            | ok r5 =>
              simp only [h5, bindOk] at h
              have h6 : (PNode.mk Rule.message_def "" (nameN :: elems), r5) = (n, r) :=
                Except.ok.inj h
              cases h6
              rfl

/-- A successful `rpc_def` match produces an `rpc_def` pair whose
input and output `message_type` pairs both carry an inner pair. -/
theorem pRpcDef_inv (toks : List Tok) (n : PNode) (r : List Tok)
    (h : pRpcDef toks = Except.ok (n, r)) :
    n.as_rule = Rule.rpc_def ∧ RpcOk n := by
  unfold pRpcDef at h
  cases h1 : pKw "rpc" toks with
  | error e => simp only [h1, bindErr] at h; exact Except.noConfusion h
  | ok r1 =>
    simp only [h1, bindOk] at h
    cases h2 : pIdent r1 with
    | error e => simp only [h2, bindErr] at h; exact Except.noConfusion h
    | ok pr1 =>
      obtain ⟨nameN, r2⟩ := pr1
      simp only [h2, bindOk] at h
      cases h3 : pSym '(' r2 with
      | error e => simp only [h3, bindErr] at h; exact Except.noConfusion h
      | ok r3 =>
        simp only [h3, bindOk] at h
        cases h4 : pMessageType r3 with
        | error e => simp only [h4, bindErr] at h; exact Except.noConfusion h
        | ok pr2 =>
          obtain ⟨inN, r4⟩ := pr2
          simp only [h4, bindOk] at h
          cases h5 : pSym ')' r4 with
          | error e => simp only [h5, bindErr] at h; exact Except.noConfusion h
          | ok r5 =>
            simp only [h5, bindOk] at h
            cases h6 : pKw "returns" r5 with
            | error e => simp only [h6, bindErr] at h; exact Except.noConfusion h
            | ok r6 =>
              simp only [h6, bindOk] at h
              cases h7 : pSym '(' r6 with
              | error e => simp only [h7, bindErr] at h; exact Except.noConfusion h
              | ok r7 =>
                simp only [h7, bindOk] at h
                cases h8 : pMessageType r7 with
                | error e => simp only [h8, bindErr] at h; exact Except.noConfusion h
                | ok pr3 =>
                  obtain ⟨outN, r8⟩ := pr3
                  simp only [h8, bindOk] at h
                  cases h9 : pSym ')' r8 with
                  | error e => simp only [h9, bindErr] at h; exact Except.noConfusion h
                  | ok r9 =>
                    simp only [h9, bindOk] at h
                    have hin := pMessageType_inv r3 inN r4 h4
                    have hout := pMessageType_inv r7 outN r8 h8
                    cases h10 : pSym ';' r9 with
                    | ok rr =>
                      simp only [h10, pureOk, bindOk] at h
                      have h11 : (PNode.mk Rule.rpc_def "" [nameN, inN, outN], rr)
                          = (n, r) := Except.ok.inj h
                      cases h11
                      refine ⟨rfl, ?_⟩
                      simp [RpcOk, PNode.into_inner]
                      exact ⟨hin, hout⟩
                    | error e =>
                      simp only [h10] at h
                      cases h11 : pSym lbraceC r9 with
                      | error e2 =>
                        simp only [h11, bindErr] at h
                        exact Except.noConfusion h
                      | ok ra =>
                        simp only [h11, bindOk] at h
                        cases h12 : pSym rbraceC ra with
                        | error e2 =>
                          simp only [h12, bindErr] at h
                          exact Except.noConfusion h
                        | ok rb =>
                          simp only [h12, bindOk] at h
                          have h13 : (PNode.mk Rule.rpc_def "" [nameN, inN, outN], rb)
                              = (n, r) := Except.ok.inj h
                          cases h13
                          refine ⟨rfl, ?_⟩
                          simp [RpcOk, PNode.into_inner]
                          exact ⟨hin, hout⟩

/-- Every pair produced by the rpc star is a panic-free `rpc_def` pair. -/
theorem pRpcs_inv (fuel : Nat) : ∀ (ts : List Tok) (ns : List PNode) (r : List Tok),
    pRpcs fuel ts = Except.ok (ns, r) →
    ∀ q ∈ ns, q.as_rule = Rule.rpc_def ∧ RpcOk q := by
  induction fuel with
  | zero => intro ts ns r h; exact Except.noConfusion h
  | succ fuel ih =>
    intro ts ns r h
    unfold pRpcs at h
    cases h1 : pRpcDef ts with
    | error e =>
      simp only [h1, pureOk] at h
      have h2 : (([] : List PNode), ts) = (ns, r) := Except.ok.inj h
      cases h2
      intro q hq
      exact absurd hq (List.not_mem_nil q)
    | ok pr =>
      obtain ⟨n1, rest⟩ := pr
      simp only [h1] at h
      cases h2 : pRpcs fuel rest with
      | error e => simp only [h2, mapErr] at h; exact Except.noConfusion h
      | ok pr2 =>
        obtain ⟨ns2, r2⟩ := pr2
        simp only [h2, mapOk] at h
        have h3 : (n1 :: ns2, r2) = (ns, r) := Except.ok.inj h
        cases h3
        intro q hq
        rcases List.mem_cons.mp hq with hq1 | hq2
        · subst hq1
          exact pRpcDef_inv ts q rest h1
        · exact ih rest _ _ h2 q hq2

/-- A successful `service_def` match produces a panic-free pair. -/
theorem pServiceDef_inv (toks : List Tok) (n : PNode) (r : List Tok)
    (h : pServiceDef toks = Except.ok (n, r)) : NodeOk n := by
  unfold pServiceDef at h
  cases h1 : pKw "service" toks with
  | error e => simp only [h1, bindErr] at h; exact Except.noConfusion h
  | ok r1 =>
    simp only [h1, bindOk] at h
    cases h2 : pIdent r1 with
    | error e => simp only [h2, bindErr] at h; exact Except.noConfusion h
    | ok pr1 =>
      obtain ⟨nameN, r2⟩ := pr1
      simp only [h2, bindOk] at h
      cases h3 : pSym lbraceC r2 with
      | error e => simp only [h3, bindErr] at h; exact Except.noConfusion h
      | ok r3 =>
        simp only [h3, bindOk] at h
        cases h4 : pRpcs (r3.length + 1) r3 with
        | error e => simp only [h4, bindErr] at h; exact Except.noConfusion h
        | ok pr2 =>
          obtain ⟨rpcs, r4⟩ := pr2
          simp only [h4, bindOk] at h
          cases h5 : pSym rbraceC r4 with
          | error e => simp only [h5, bindErr] at h; exact Except.noConfusion h
          | ok r5 =>
            simp only [h5, bindOk] at h
            have h6 : (PNode.mk Rule.service_def "" (nameN :: rpcs), r5) = (n, r) :=
              Except.ok.inj h
            cases h6
            intro q hq hrq
            rcases List.mem_cons.mp hq with hq1 | hq2
            · subst hq1
              have hid := pIdent_inv r1 q r2 h2
              rw [hid] at hrq
              exact Rule.noConfusion hrq
            · exact (pRpcs_inv (r3.length + 1) r3 rpcs r4 h4 q hq2).2

/-- Every pair produced by the import star is panic-free. -/
theorem pImports_inv (fuel : Nat) : ∀ (ts : List Tok) (ns : List PNode) (r : List Tok),
    pImports fuel ts = Except.ok (ns, r) → ∀ q ∈ ns, NodeOk q := by
  induction fuel with
  | zero => intro ts ns r h; exact Except.noConfusion h
  | succ fuel ih =>
    intro ts ns r h
    unfold pImports at h
    cases h1 : pImportDecl ts with
    | error e =>
      simp only [h1, pureOk] at h
      have h2 : (([] : List PNode), ts) = (ns, r) := Except.ok.inj h
      cases h2
      intro q hq
      exact absurd hq (List.not_mem_nil q)
    | ok pr =>
      obtain ⟨n1, rest⟩ := pr
      simp only [h1] at h
      cases h2 : pImports fuel rest with
      | error e => simp only [h2, mapErr] at h; exact Except.noConfusion h
      | ok pr2 =>
        obtain ⟨ns2, r2⟩ := pr2
        simp only [h2, mapOk] at h
        have h3 : (n1 :: ns2, r2) = (ns, r) := Except.ok.inj h
        cases h3
        intro q hq
        rcases List.mem_cons.mp hq with hq1 | hq2
        · subst hq1
          obtain ⟨hr1, hc1⟩ := pImportDecl_inv ts q rest h1
          simp only [NodeOk, hr1]
          exact hc1
        · exact ih rest _ _ h2 q hq2

/-- Every pair produced by the top-level definition star is panic-free. -/
theorem pTopDefs_inv (fuel : Nat) : ∀ (ts : List Tok) (ns : List PNode) (r : List Tok),
    pTopDefs fuel ts = Except.ok (ns, r) → ∀ q ∈ ns, NodeOk q := by
  induction fuel with
  | zero => intro ts ns r h; exact Except.noConfusion h
  | succ fuel ih =>
    intro ts ns r h
    unfold pTopDefs at h
    cases h1 : pMessageDef fuel ts with
    | ok pr =>
      obtain ⟨n1, rest⟩ := pr
      simp only [h1] at h
      cases h2 : pTopDefs fuel rest with
      | error e => simp only [h2, mapErr] at h; exact Except.noConfusion h
      | ok pr2 =>
        obtain ⟨ns2, r2⟩ := pr2
        simp only [h2, mapOk] at h
        have h3 : (n1 :: ns2, r2) = (ns, r) := Except.ok.inj h
        cases h3
        intro q hq
        rcases List.mem_cons.mp hq with hq1 | hq2
        · subst hq1
          have hr1 := pMessageDef_rule fuel ts q rest h1
          simp [NodeOk, hr1]
        · exact ih rest _ _ h2 q hq2
    | error e =>
      simp only [h1] at h
      cases h2 : pEnumDef ts with
      | ok pr =>
        obtain ⟨n1, rest⟩ := pr
        simp only [h2] at h
        cases h3 : pTopDefs fuel rest with
        | error e2 => simp only [h3, mapErr] at h; exact Except.noConfusion h
        | ok pr2 =>
          obtain ⟨ns2, r2⟩ := pr2
          simp only [h3, mapOk] at h
          have h4 : (n1 :: ns2, r2) = (ns, r) := Except.ok.inj h
          cases h4
          intro q hq
          rcases List.mem_cons.mp hq with hq1 | hq2
          · subst hq1
            have hr1 := pEnumDef_rule ts q rest h2
            simp [NodeOk, hr1]
          · exact ih rest _ _ h3 q hq2
      | error e2 =>
        simp only [h2] at h
        cases h3 : pServiceDef ts with
        | ok pr =>
          obtain ⟨n1, rest⟩ := pr
          simp only [h3] at h
          cases h4 : pTopDefs fuel rest with
          | error e3 => simp only [h4, mapErr] at h; exact Except.noConfusion h
          | ok pr2 =>
            obtain ⟨ns2, r2⟩ := pr2
            simp only [h4, mapOk] at h
            have h5 : (n1 :: ns2, r2) = (ns, r) := Except.ok.inj h
            cases h5
            intro q hq
            rcases List.mem_cons.mp hq with hq1 | hq2
            · subst hq1
              exact pServiceDef_inv ts q rest h3
            · exact ih rest _ _ h4 q hq2
        | error e3 =>
          simp only [h3, pureOk] at h
          have h4 : (([] : List PNode), ts) = (ns, r) := Except.ok.inj h
          cases h4
          intro q hq
          exact absurd hq (List.not_mem_nil q)

/-- The tail of the `proto_file` rule (imports, top-level definitions,
end of input) produces only panic-free children given panic-free
prefixes. -/
theorem pProtoFile_tail_inv (fuel : Nat) (preS preP : List PNode) (ts : List Tok)
    (tree : PNode)
    (hS : ∀ p ∈ preS, NodeOk p) (hP : ∀ p ∈ preP, NodeOk p)
    (h : (do
        let (imps, r3) ← pImports fuel ts
        let (defs, r4) ← pTopDefs fuel r3
        match r4 with
        | [] =>
          pure (PNode.mk Rule.proto_file ""
            (preS ++ preP ++ imps ++ defs ++ [PNode.mk Rule.EOI "" []]))
        | ts2 => perr ts2) = Except.ok tree) :
    ∀ p ∈ tree.into_inner, NodeOk p := by
  cases h1 : pImports fuel ts with
  | error e => simp only [h1, bindErr] at h; exact Except.noConfusion h
  | ok pr1 =>
    obtain ⟨imps, r3⟩ := pr1
    simp only [h1, bindOk] at h
    cases h2 : pTopDefs fuel r3 with
    | error e => simp only [h2, bindErr] at h; exact Except.noConfusion h
    | ok pr2 =>
      obtain ⟨defs, r4⟩ := pr2
      simp only [h2, bindOk] at h
      cases r4 with
      | cons t ts2 => exact Except.noConfusion h
      | nil =>
        have h3 : PNode.mk Rule.proto_file ""
            (preS ++ preP ++ imps ++ defs ++ [PNode.mk Rule.EOI "" []]) = tree :=
          Except.ok.inj h
        rw [← h3]
        intro p hp
        simp only [PNode.into_inner, List.append_assoc, List.mem_append,
          List.mem_singleton] at hp
        rcases hp with hp | hp | hp | hp | hp
        · exact hS p hp
        · exact hP p hp
        · exact pImports_inv fuel ts imps r3 h1 p hp
        · exact pTopDefs_inv fuel r3 defs [] h2 p hp
        · subst hp
          simp [NodeOk, PNode.as_rule]

/-- Every child of a grammar-matched `proto_file` pair is panic-free. -/
theorem pProtoFile_inv (toks : List Tok) (tree : PNode)
    (h : pProtoFile toks = Except.ok tree) :
    ∀ p ∈ tree.into_inner, NodeOk p := by
  unfold pProtoFile at h
  cases h1 : pSynDecl toks with
  | ok pr1 =>
    obtain ⟨sn, ra⟩ := pr1
    simp only [h1] at h
    have hSn : ∀ p ∈ [sn], NodeOk p := by
      intro p hp
      rw [List.mem_singleton] at hp
      subst hp
      obtain ⟨hr, hc⟩ := pSynDecl_inv toks p ra h1
      simp only [NodeOk, hr]
      exact hc
    cases h2 : pPackage ra with
    | ok pr2 =>
      obtain ⟨pk, rb⟩ := pr2
      simp only [h2] at h
      have hPk : ∀ p ∈ [pk], NodeOk p := by
        intro p hp
        rw [List.mem_singleton] at hp
        subst hp
        obtain ⟨hr, hc⟩ := pPackage_inv ra p rb h2
        simp only [NodeOk, hr]
        exact hc
      exact pProtoFile_tail_inv (toks.length + 2) [sn] [pk] rb tree hSn hPk h
    | error e =>
      simp only [h2] at h
      exact pProtoFile_tail_inv (toks.length + 2) [sn] [] ra tree hSn
        (by intro p hp; exact absurd hp (List.not_mem_nil p)) h
  | error e =>
    simp only [h1] at h
    cases h2 : pPackage toks with
    | ok pr2 =>
      obtain ⟨pk, rb⟩ := pr2
      simp only [h2] at h
      have hPk : ∀ p ∈ [pk], NodeOk p := by
        intro p hp
        rw [List.mem_singleton] at hp
        subst hp
        obtain ⟨hr, hc⟩ := pPackage_inv toks p rb h2
        simp only [NodeOk, hr]
        exact hc
      exact pProtoFile_tail_inv (toks.length + 2) [] [pk] rb tree
        (by intro p hp; exact absurd hp (List.not_mem_nil p)) hPk h
    | error e2 =>
      simp only [h2] at h
      exact pProtoFile_tail_inv (toks.length + 2) [] [] toks tree
        (by intro p hp; exact absurd hp (List.not_mem_nil p))
        (by intro p hp; exact absurd hp (List.not_mem_nil p)) h

/-- The construction loop over panic-free children never panics. -/
theorem buildLoop_ok_of_all (cs : List PNode) : ∀ st : Proto,
    (∀ p ∈ cs, NodeOk p) → ∃ proto, Proto.buildLoop cs st = Except.ok proto := by
  induction cs with
  | nil => exact fun st _ => ⟨st, rfl⟩
  | cons p ps ih =>
    intro st h
    have hp := h p (List.mem_cons_self p ps)
    have hps : ∀ q ∈ ps, NodeOk q := fun q hq => h q (List.mem_cons_of_mem p hq)
    unfold NodeOk at hp
    cases hr : p.as_rule
    all_goals rw [hr] at hp
    all_goals unfold Proto.buildLoop
    all_goals rw [hr]
    case synDecl =>
      cases hch : p.into_inner with
      | nil => exact absurd hch hp
      | cons c cr =>
        obtain ⟨proto, hb⟩ := ih _ hps
        exact ⟨proto, hb⟩
    case package =>
      cases hch : p.into_inner with
      | nil => exact absurd hch hp
      | cons c cr =>
        obtain ⟨proto, hb⟩ := ih _ hps
        exact ⟨proto, hb⟩
    case importDecl =>
      cases hch : p.into_inner with
      | nil => exact absurd hch hp
      | cons c cr =>
        obtain ⟨proto, hb⟩ := ih _ hps
        exact ⟨proto, hb⟩
    case service_def =>
      obtain ⟨svc, hsvc⟩ := parse_service_ok_of_NodeOk p hr (by
        unfold NodeOk
        rw [hr]
        exact hp)
      obtain ⟨proto, hb⟩ := ih _ hps
      rw [hsvc]
      exact ⟨proto, hb⟩
    all_goals exact ih _ hps

/-- C10: AST construction never panics on a grammar-accepted input: the
inner-pair `.unwrap()` calls (syntax, package, import, rpc input and
output types) always find a pair, so every parse call returns a
document or an error — never the panic outcome. -/
theorem c10_no_unwrap_panic (input : String) :
    (∃ j, Proto.parse input = Outcome.ok j) ∨
      (∃ e, Proto.parse input = Outcome.err e) := by
  unfold Proto.parse Proto.parseDoc
  cases ht : tokenize input with
  | error nn =>
    right
    exact ⟨ParserError.parseError ⟨nn⟩, by simp only [ht]⟩
  | ok toks =>
    cases hp : pProtoFile toks with
    | error nn =>
      right
      exact ⟨ParserError.parseError ⟨nn⟩, by simp only [ht, hp]⟩
    | ok tree =>
      obtain ⟨proto, hb⟩ := buildLoop_ok_of_all tree.into_inner Proto.init
        (pProtoFile_inv toks tree hp)
      left
      exact ⟨Json.render (Proto.toJson proto) 0, by simp only [ht, hp, hb]⟩

end ProtoFP
